import Mathlib

/-!
Verification of the strpool string-interning pool.

Shallow embedding of `src/lib.rs`.

Modelling conventions:

* `IndexSet<Cow<'static, str>>` is modelled as a `List String` in insertion
  order.  `Cow` equality, hashing and ordering are all content-based in Rust
  (`Cow::Borrowed(s) == Cow::Owned(s.to_string())`), so the `Borrowed`/`Owned`
  distinction is unobservable through the pool API and the two variants are
  collapsed to the string content.
* `IndexSet::insert_full` is modelled by `insertFull`: if an equal element is
  already present it returns its index and leaves the set unchanged, otherwise
  it appends the element and returns the fresh index (the documented contract
  of `indexmap`).
* The thread-local global pool (`GLOBAL_POOL`) is modelled by explicit state
  passing: every operation that touches the global pool takes the pool before
  the call and returns the pool after it.
* Rust code that can panic (`Deref for StrRef`, which does
  `.expect("null string ref")`) is modelled with `Option`, `none` being the
  panic.
* `core::str::from_utf8` (a dependency, not repository code) is modelled by
  `from_utf8` below, implementing the documented UTF-8 validation semantics
  of Rust: success exactly on well-formed UTF-8, and on failure the error
  carries `valid_up_to`, the byte offset at which the first invalid sequence
  starts.  Rust byte strings are modelled as `List Nat` (each element a byte
  value `< 256`; the decoder rejects anything `≥ 0xF5` outright, so larger
  numbers behave like invalid bytes).
* Rust `str` comparison is byte-wise lexicographic on UTF-8; for Unicode
  scalar values this coincides with code-point lexicographic order, which is
  Lean's `String` order (`String.lt` = lexicographic `List.lt` on the
  characters), so Rust `str` `<`/`==` are modelled by Lean `String` `<`/`=`.
-/

/-- Rust `pub struct StrPool { pool: IndexSet<Cow<'static, str>> }`. -/
structure StrPool where
  pool : List String
deriving Repr, DecidableEq

/-- Rust `impl Default for StrPool` — the empty pool. -/
def StrPool.default : StrPool := ⟨[]⟩

/-- Rust `pub struct StrRef { ptr: usize }`.  A copyable handle holding only an
index. -/
structure StrRef where
  ptr : Nat
deriving Repr, DecidableEq

/-- Model of `IndexSet::insert_full` specialised to string content: returns
the index of an already-present equal element and the unchanged set, or
appends the element and returns the fresh index. -/
def insertFull (l : List String) (s : String) : Nat × List String :=
  if s ∈ l then (l.indexOf s, l) else (l.length, l ++ [s])

/-- Rust `StrPool::put_static` (src/lib.rs:24-28): inserts a `Cow::Borrowed`
entry via `insert_full` and wraps the returned index in a `StrRef`. -/
def StrPool.put_static (p : StrPool) (s : String) : StrRef × StrPool :=
  (⟨(insertFull p.pool s).1⟩, ⟨(insertFull p.pool s).2⟩)

/-- Rust `StrPool::put_heap` (src/lib.rs:30-35): inserts a `Cow::Owned` entry via
`insert_full` and wraps the returned index in a `StrRef`. -/
def StrPool.put_heap (p : StrPool) (s : String) : StrRef × StrPool :=
  (⟨(insertFull p.pool s).1⟩, ⟨(insertFull p.pool s).2⟩)

/-- Rust `StrPool::get` (src/lib.rs:37-41): `self.pool.get_index(r.ptr)`, i.e. a
pure positional lookup returning `None` when the index is out of range. -/
def StrPool.get (p : StrPool) (r : StrRef) : Option String :=
  p.pool[r.ptr]?

/-- Rust `impl Deref for StrRef` (src/lib.rs:44-50): resolves the handle against
the global pool with `get`, panicking (`expect("null string ref")`, here
`none`) when the lookup is absent. -/
def derefOpt (p : StrPool) (r : StrRef) : Option String :=
  p.get r

/-- A sequence of `put_heap` insertions into the global pool, keeping only
the final pool state. -/
def putMany (p : StrPool) (l : List String) : StrPool :=
  l.foldl (fun q s => (q.put_heap s).2) p

/-- Rust `impl PartialEq<Self> for StrRef` (src/lib.rs:70-74):
`self.deref() == other.deref()` — content equality through the pool, with
`none` for the (panicking) case of an unresolvable handle. -/
def refEqOpt (p : StrPool) (a b : StrRef) : Option Bool :=
  match derefOpt p a, derefOpt p b with
  | some x, some y => some (decide (x = y))
  | _, _ => none

/-- Rust `impl PartialOrd/Ord for StrRef` (src/lib.rs:78-88) reduced to the
strict-order test: `handle < handle` compares the dereferenced contents. -/
def refLt (p : StrPool) (a b : StrRef) : Option Bool :=
  match derefOpt p a, derefOpt p b with
  | some x, some y => some (decide (x < y))
  | _, _ => none

/-- Rust `impl Hash for StrRef` (src/lib.rs:120-124): `self.deref().hash(state)`.
A hasher is modelled abstractly as a state type `H` together with the state
transition `step : H → String → H` performed by hashing a `str`; the handle
implementation feeds the dereferenced content to the same transition. -/
def refHash {H : Type u} (step : H → String → H) (p : StrPool) (r : StrRef)
    (st : H) : Option H :=
  (derefOpt p r).map (step st)

/-- Free function `put_static` (src/lib.rs:56-58) on the global pool. -/
def globalPutStatic (p : StrPool) (s : String) : StrRef × StrPool :=
  p.put_static s

/-- Free function `put_heap` (src/lib.rs:60-62) on the global pool. -/
def globalPutHeap (p : StrPool) (s : String) : StrRef × StrPool :=
  p.put_heap s

/-- Rust `impl From<String> for StrRef` (src/lib.rs:132-137): `put_heap(value)`. -/
def strRefFromString (p : StrPool) (s : String) : StrRef × StrPool :=
  globalPutHeap p s

/-- Rust `impl From<&str> for StrRef` (src/lib.rs:139-144):
`put_heap(value.to_owned())`. -/
def strRefFromStr (p : StrPool) (s : String) : StrRef × StrPool :=
  globalPutHeap p s

/-- Rust `impl From<Box<str>> for StrRef` (src/lib.rs:146-151):
`put_heap(String::from(value))`. -/
def strRefFromBox (p : StrPool) (s : String) : StrRef × StrPool :=
  globalPutHeap p s

/-- Rust `impl From<StrRef> for String` (src/lib.rs:153-158):
`value.deref().to_owned()`; `none` models the deref panic. -/
def stringFromStrRef (p : StrPool) (r : StrRef) : Option String :=
  derefOpt p r

/-- Rust `impl Default for StrRef` (src/lib.rs:64-68): `put_static("")` on the
global pool. -/
def strRefDefault (p : StrPool) : StrRef × StrPool :=
  p.put_static ""

/- ### Basic lemmas about `insertFull` -/

theorem insertFull_snd_get_fst (l : List String) (s : String) :
    (insertFull l s).2[(insertFull l s).1]? = some s := by
  unfold insertFull
  by_cases h : s ∈ l
  · simp only [if_pos h]
    exact List.getElem?_indexOf h
  · simp only [if_neg h]
    exact List.getElem?_concat_length l s

theorem insertFull_preserves (l : List String) (s : String) (i : Nat)
    (h : i < l.length) : (insertFull l s).2[i]? = l[i]? := by
  unfold insertFull
  by_cases hm : s ∈ l
  · simp [if_pos hm]
  · simp only [if_neg hm]
    exact List.getElem?_append_left h

theorem insertFull_fst_lt (l : List String) (s : String) :
    (insertFull l s).1 < (insertFull l s).2.length := by
  unfold insertFull
  by_cases h : s ∈ l
  · simp only [if_pos h]
    exact List.indexOf_lt_length.2 h
  · simp [if_neg h]

theorem insertFull_length (l : List String) (s : String) :
    (insertFull l s).2.length = if s ∈ l then l.length else l.length + 1 := by
  unfold insertFull
  by_cases h : s ∈ l <;> simp [h]

theorem insertFull_mem (l : List String) (s a : String) :
    a ∈ (insertFull l s).2 ↔ a ∈ l ∨ a = s := by
  unfold insertFull
  by_cases h : s ∈ l
  · simp only [if_pos h]
    constructor
    · exact Or.inl
    · rintro (ha | rfl) <;> [exact ha; exact h]
  · simp [if_neg h]

theorem insertFull_of_mem (l : List String) (s : String) (h : s ∈ l) :
    insertFull l s = (l.indexOf s, l) := by
  simp [insertFull, h]

/- ### Pool-level helper lemmas -/

theorem put_heap_get_self (p : StrPool) (s : String) :
    (p.put_heap s).2.get (p.put_heap s).1 = some s :=
  insertFull_snd_get_fst p.pool s

theorem put_static_get_self (p : StrPool) (s : String) :
    (p.put_static s).2.get (p.put_static s).1 = some s :=
  insertFull_snd_get_fst p.pool s

theorem put_heap_ptr_lt (p : StrPool) (s : String) :
    (p.put_heap s).1.ptr < (p.put_heap s).2.pool.length :=
  insertFull_fst_lt p.pool s

theorem get_isSome_iff (p : StrPool) (r : StrRef) :
    (p.get r).isSome ↔ r.ptr < p.pool.length := by
  unfold StrPool.get
  rcases Nat.lt_or_ge r.ptr p.pool.length with h | h
  · simp [List.getElem?_eq_getElem h, h]
  · simp [List.getElem?_eq_none h, Nat.not_lt.2 h]

theorem put_heap_get_preserves (p : StrPool) (s : String) (r : StrRef)
    (h : r.ptr < p.pool.length) : (p.put_heap s).2.get r = p.get r :=
  insertFull_preserves p.pool s r.ptr h

theorem put_static_get_preserves (p : StrPool) (s : String) (r : StrRef)
    (h : r.ptr < p.pool.length) : (p.put_static s).2.get r = p.get r :=
  insertFull_preserves p.pool s r.ptr h

theorem insertFull_le_length (l : List String) (s : String) :
    l.length ≤ (insertFull l s).2.length := by
  rw [insertFull_length]
  by_cases h : s ∈ l <;> simp [h]

theorem putMany_get_preserves (l : List String) (p : StrPool) (r : StrRef)
    (h : r.ptr < p.pool.length) : (putMany p l).get r = p.get r := by
  induction l generalizing p with
  | nil => rfl
  | cons x xs ih =>
    show (putMany (p.put_heap x).2 xs).get r = p.get r
    rw [ih _ (Nat.lt_of_lt_of_le h (insertFull_le_length p.pool x))]
    exact put_heap_get_preserves p x r h

theorem putMany_fresh_length (l : List String) (p : StrPool)
    (hnd : l.Nodup) (hfresh : ∀ s ∈ l, s ∉ p.pool) :
    (putMany p l).pool.length = p.pool.length + l.length := by
  induction l generalizing p with
  | nil => rfl
  | cons x xs ih =>
    have hx : x ∉ p.pool := hfresh x (List.mem_cons_self x xs)
    have hstep : (p.put_heap x).2.pool = p.pool ++ [x] := by
      simp [StrPool.put_heap, insertFull, hx]
    show (putMany (p.put_heap x).2 xs).pool.length = p.pool.length + (xs.length + 1)
    rw [ih (p.put_heap x).2 (List.Nodup.of_cons hnd)]
    · rw [hstep]
      simp
      omega
    · intro s hs
      rw [hstep]
      simp only [List.mem_append, List.mem_singleton]
      rintro (hmem | rfl)
      · exact hfresh s (List.mem_cons_of_mem x hs) hmem
      · exact (List.nodup_cons.1 hnd).1 hs

theorem putMany_mem (l : List String) (p : StrPool) (a : String) :
    a ∈ (putMany p l).pool ↔ a ∈ p.pool ∨ a ∈ l := by
  induction l generalizing p with
  | nil => simp [putMany]
  | cons x xs ih =>
    show a ∈ (putMany (p.put_heap x).2 xs).pool ↔ _
    rw [ih]
    show a ∈ (insertFull p.pool x).2 ∨ a ∈ xs ↔ _
    rw [insertFull_mem]
    simp only [List.mem_cons]
    tauto

/- ### Claim theorems -/

/-- C1: Inserting content already present in the pool — via `put_static`
or `put_heap`, regardless of how the existing entry got there — returns the
existing entry's index and leaves the pool unchanged; inserting `N` distinct
strings into a fresh pool yields exactly `N` entries, and re-inserting any
of them does not increase that count. -/
theorem C1_dedup_and_growth :
    (∀ (p : StrPool) (s : String), s ∈ p.pool →
        (p.put_static s).2 = p ∧ (p.put_heap s).2 = p ∧
        (p.put_static s).1.ptr = p.pool.indexOf s ∧
        (p.put_heap s).1.ptr = p.pool.indexOf s) ∧
    (∀ l : List String, l.Nodup →
        (putMany StrPool.default l).pool.length = l.length) ∧
    (∀ (l : List String) (s : String), l.Nodup → s ∈ l →
        (putMany (putMany StrPool.default l) [s]).pool.length =
          (putMany StrPool.default l).pool.length) := by
  refine ⟨fun p s h => ?_, fun l hnd => ?_, fun l s _ hmem => ?_⟩
  · simp [StrPool.put_static, StrPool.put_heap, insertFull_of_mem _ _ h]
  · have := putMany_fresh_length l StrPool.default hnd (by simp [StrPool.default])
    simpa [StrPool.default] using this
  · have hin : s ∈ (putMany StrPool.default l).pool :=
      (putMany_mem l StrPool.default s).2 (Or.inr hmem)
    show ((putMany StrPool.default l).put_heap s).2.pool.length = _
    rw [show ((putMany StrPool.default l).put_heap s).2.pool =
          (insertFull (putMany StrPool.default l).pool s).2 from rfl,
        insertFull_length]
    simp [hin]

/-- Witness for C1 at concrete inputs: re-inserting `"a"` into the pool
`["a"]` leaves it unchanged, and inserting the two distinct strings `"a"`,
`"b"` into the fresh pool yields two entries. -/
theorem C1_dedup_and_growth_witness :
    ((StrPool.mk ["a"]).put_heap "a").2 = StrPool.mk ["a"] ∧
    (putMany StrPool.default ["a", "b"]).pool.length = 2 :=
  ⟨(C1_dedup_and_growth.1 (StrPool.mk ["a"]) "a" (by decide)).2.1,
   C1_dedup_and_growth.2.1 ["a", "b"] (by decide)⟩

/-- C2: Converting a string into a handle through any of the three
`From` constructors (`&str`, `String`, `Box<str>`) and converting the handle
back to an owned string yields exactly the original string. -/
theorem C2_round_trip (p : StrPool) (s : String) :
    stringFromStrRef (strRefFromStr p s).2 (strRefFromStr p s).1 = some s ∧
    stringFromStrRef (strRefFromString p s).2 (strRefFromString p s).1 = some s ∧
    stringFromStrRef (strRefFromBox p s).2 (strRefFromBox p s).1 = some s :=
  ⟨put_heap_get_self p s, put_heap_get_self p s, put_heap_get_self p s⟩

/-- C5: An index already assigned in the pool resolves to the same
content after any subsequent insertion (`put_static` or `put_heap`, any
content): assigned indices are never changed, reused or removed. -/
theorem C5_index_stability (p : StrPool) (r : StrRef) (s : String)
    (h : (p.get r).isSome) :
    (p.put_static s).2.get r = p.get r ∧ (p.put_heap s).2.get r = p.get r := by
  have hlt := (get_isSome_iff p r).1 h
  exact ⟨put_static_get_preserves p s r hlt, put_heap_get_preserves p s r hlt⟩

/-- Witness for C5: index 0 of the pool `["a"]` resolves identically before
and after inserting `"b"` by either insertion operation. -/
theorem C5_index_stability_witness :
    ((StrPool.mk ["a"]).put_static "b").2.get ⟨0⟩ = (StrPool.mk ["a"]).get ⟨0⟩ ∧
    ((StrPool.mk ["a"]).put_heap "b").2.get ⟨0⟩ = (StrPool.mk ["a"]).get ⟨0⟩ :=
  C5_index_stability (StrPool.mk ["a"]) ⟨0⟩ "b" (by decide)

/-- C6: Pool lookup returns the stored content for every in-range index
and `none` for every out-of-range index (it is a pure function of the pool,
so it cannot modify it), and dereferencing a handle hits the fatal
(`expect`) branch exactly when this lookup is absent. -/
theorem C6_get_in_range_out_of_range :
    (∀ (p : StrPool) (i : Nat) (h : i < p.pool.length),
        p.get ⟨i⟩ = some p.pool[i]) ∧
    (∀ (p : StrPool) (i : Nat), p.pool.length ≤ i → p.get ⟨i⟩ = none) ∧
    (∀ (p : StrPool) (r : StrRef), derefOpt p r = none ↔ p.get r = none) :=
  ⟨fun _ _ h => List.getElem?_eq_getElem h,
   fun _ _ h => List.getElem?_eq_none h,
   fun _ _ => Iff.rfl⟩

/-- Witness for C6: in the pool `["a"]`, index 0 resolves to `"a"` and
index 5 is absent. -/
theorem C6_get_in_range_out_of_range_witness :
    (StrPool.mk ["a"]).get ⟨0⟩ = some "a" ∧ (StrPool.mk ["a"]).get ⟨5⟩ = none :=
  ⟨C6_get_in_range_out_of_range.1 (StrPool.mk ["a"]) 0 (by decide),
   C6_get_in_range_out_of_range.2.1 (StrPool.mk ["a"]) 5 (by decide)⟩

/-- C7: A handle produced by `put_static` or `put_heap` dereferences
successfully against the pool that produced it — immediately and after any
further sequence of insertions — so the fatal `expect("null string ref")`
branch is unreachable for pool-produced handles. -/
theorem C7_deref_always_resolves (p : StrPool) (s : String) (l : List String) :
    derefOpt (p.put_static s).2 (p.put_static s).1 = some s ∧
    derefOpt (p.put_heap s).2 (p.put_heap s).1 = some s ∧
    derefOpt (putMany (p.put_static s).2 l) (p.put_static s).1 = some s ∧
    derefOpt (putMany (p.put_heap s).2 l) (p.put_heap s).1 = some s := by
  refine ⟨put_static_get_self p s, put_heap_get_self p s, ?_, ?_⟩
  · show (putMany (p.put_static s).2 l).get (p.put_static s).1 = some s
    rw [putMany_get_preserves l (p.put_static s).2 (p.put_static s).1
          (insertFull_fst_lt p.pool s)]
    exact put_static_get_self p s
  · show (putMany (p.put_heap s).2 l).get (p.put_heap s).1 = some s
    rw [putMany_get_preserves l (p.put_heap s).2 (p.put_heap s).1
          (insertFull_fst_lt p.pool s)]
    exact put_heap_get_self p s

theorem put_then_put_get_first (p : StrPool) (a b : String) :
    ((p.put_heap a).2.put_heap b).2.get (p.put_heap a).1 = some a := by
  rw [put_heap_get_preserves (p.put_heap a).2 b (p.put_heap a).1
        (insertFull_fst_lt p.pool a)]
  exact put_heap_get_self p a

/-- C3: Interning `a` and then `b` (two independent operations on the
same pool) yields handles whose equality test resolves to content equality:
the handles compare equal exactly when `a = b`, because handle equality
compares dereferenced content, not indices. -/
theorem C3_content_equality (p : StrPool) (a b : String) :
    (refEqOpt ((p.put_heap a).2.put_heap b).2 (p.put_heap a).1
        ((p.put_heap a).2.put_heap b).1 = some (decide (a = b))) ∧
    (refEqOpt ((p.put_heap a).2.put_heap b).2 (p.put_heap a).1
        ((p.put_heap a).2.put_heap b).1 = some true ↔ a = b) := by
  have ha : derefOpt ((p.put_heap a).2.put_heap b).2 (p.put_heap a).1 = some a :=
    put_then_put_get_first p a b
  have hb : derefOpt ((p.put_heap a).2.put_heap b).2
      ((p.put_heap a).2.put_heap b).1 = some b :=
    put_heap_get_self (p.put_heap a).2 b
  refine ⟨?_, ?_⟩
  · rw [refEqOpt, ha, hb]
  · rw [refEqOpt, ha, hb]
    simp

/-- Witness for C3: interning `"a"` then `"b"` yields handles whose
equality test returns `some false`, i.e. `some (decide ("a" = "b"))`. -/
theorem C3_content_equality_witness :
    refEqOpt ((StrPool.default.put_heap "a").2.put_heap "b").2
      (StrPool.default.put_heap "a").1
      ((StrPool.default.put_heap "a").2.put_heap "b").1 =
      some (decide (("a" : String) = "b")) :=
  (C3_content_equality StrPool.default "a" "b").1

/-- C9: Interning `a` and then `b` yields handles whose strict-order
test resolves to the lexicographic comparison of the contents:
`handle(a) < handle(b)` exactly when `a < b`. -/
theorem C9_ordering_consistency (p : StrPool) (a b : String) :
    (refLt ((p.put_heap a).2.put_heap b).2 (p.put_heap a).1
        ((p.put_heap a).2.put_heap b).1 = some (decide (a < b))) ∧
    (refLt ((p.put_heap a).2.put_heap b).2 (p.put_heap a).1
        ((p.put_heap a).2.put_heap b).1 = some true ↔ a < b) := by
  have ha : derefOpt ((p.put_heap a).2.put_heap b).2 (p.put_heap a).1 = some a :=
    put_then_put_get_first p a b
  have hb : derefOpt ((p.put_heap a).2.put_heap b).2
      ((p.put_heap a).2.put_heap b).1 = some b :=
    put_heap_get_self (p.put_heap a).2 b
  refine ⟨?_, ?_⟩
  · rw [refLt, ha, hb]
  · rw [refLt, ha, hb]
    simp

/-- Witness for C9: interning `"a"` then `"b"` yields handles whose
strict-order test returns `some (decide ("a" < "b"))`. -/
theorem C9_ordering_consistency_witness :
    refLt ((StrPool.default.put_heap "a").2.put_heap "b").2
      (StrPool.default.put_heap "a").1
      ((StrPool.default.put_heap "a").2.put_heap "b").1 =
      some (decide (("a" : String) < "b")) :=
  (C9_ordering_consistency StrPool.default "a" "b").1

/-- C8: For every hasher (state type `H`, transition `step`), every
starting state `st` and every string `s`, hashing the handle obtained by
interning `s` (by either insertion) performs exactly the transition of
hashing `s` as plain text. -/
theorem C8_hash_consistency {H : Type u} (step : H → String → H) (st : H)
    (p : StrPool) (s : String) :
    refHash step (p.put_heap s).2 (p.put_heap s).1 st = some (step st s) ∧
    refHash step (p.put_static s).2 (p.put_static s).1 st = some (step st s) := by
  constructor
  · rw [refHash, show derefOpt (p.put_heap s).2 (p.put_heap s).1 = some s from
      put_heap_get_self p s]
    rfl
  · rw [refHash, show derefOpt (p.put_static s).2 (p.put_static s).1 = some s from
      put_static_get_self p s]
    rfl

/-- C10: A default-constructed handle resolves to the empty string, and
compares equal to every handle that resolves to `""` (in particular every
handle built by interning `""`). -/
theorem C10_default_empty :
    (∀ p : StrPool, derefOpt (strRefDefault p).2 (strRefDefault p).1 = some "") ∧
    (∀ (p : StrPool) (r : StrRef), derefOpt p r = some "" →
        refEqOpt (strRefDefault p).2 (strRefDefault p).1 r = some true) := by
  refine ⟨fun p => put_static_get_self p "", fun p r h => ?_⟩
  have hlt : r.ptr < p.pool.length := by
    have : (p.get r).isSome := by
      rw [show p.get r = derefOpt p r from rfl, h]
      rfl
    exact (get_isSome_iff p r).1 this
  have hr : derefOpt (strRefDefault p).2 r = some "" := by
    rw [show derefOpt (strRefDefault p).2 r = (p.put_static "").2.get r from rfl,
        put_static_get_preserves p "" r hlt]
    exact h
  rw [refEqOpt, show derefOpt (strRefDefault p).2 (strRefDefault p).1 = some ""
      from put_static_get_self p "", hr]
  simp

/-- Witness for C10: in the pool `[""]` the handle `⟨0⟩` resolves to `""`
and compares equal to the default-constructed handle. -/
theorem C10_default_empty_witness :
    refEqOpt (strRefDefault (StrPool.mk [""])).2
      (strRefDefault (StrPool.mk [""])).1 ⟨0⟩ = some true :=
  C10_default_empty.2 (StrPool.mk [""]) ⟨0⟩ (by decide)

/- ### UTF-8 validation (model of `core::str::from_utf8`) -/

/-- Continuation byte: `0x80 ≤ b < 0xC0`. -/
abbrev IsCont (b : Nat) : Prop := 0x80 ≤ b ∧ b < 0xC0

/-- Scalar value of a two-byte UTF-8 sequence. -/
def utf8Val2 (b0 b1 : Nat) : Nat := (b0 - 0xC0) * 0x40 + (b1 - 0x80)

/-- Scalar value of a three-byte UTF-8 sequence. -/
def utf8Val3 (b0 b1 b2 : Nat) : Nat :=
  (b0 - 0xE0) * 0x1000 + (b1 - 0x80) * 0x40 + (b2 - 0x80)

/-- Scalar value of a four-byte UTF-8 sequence. -/
def utf8Val4 (b0 b1 b2 b3 : Nat) : Nat :=
  (b0 - 0xF0) * 0x40000 + (b1 - 0x80) * 0x1000 + (b2 - 0x80) * 0x40 + (b3 - 0x80)

/-- Well-formedness of a three-byte sequence after the lead byte: two
continuation bytes, no overlong form, no surrogate. -/
abbrev Utf8Cond3 (b0 b1 b2 : Nat) : Prop :=
  IsCont b1 ∧ IsCont b2 ∧ 0x800 ≤ utf8Val3 b0 b1 b2 ∧
    (utf8Val3 b0 b1 b2 < 0xD800 ∨ 0xE000 ≤ utf8Val3 b0 b1 b2)

/-- Well-formedness of a four-byte sequence after the lead byte: three
continuation bytes, no overlong form, value at most `0x10FFFF`. -/
abbrev Utf8Cond4 (b0 b1 b2 b3 : Nat) : Prop :=
  IsCont b1 ∧ IsCont b2 ∧ IsCont b3 ∧ 0x10000 ≤ utf8Val4 b0 b1 b2 b3 ∧
    utf8Val4 b0 b1 b2 b3 < 0x110000

mutual

/-- Model of `core::str::from_utf8` over a byte list, carrying the current
byte offset `i`.  On failure returns `Except.error v` where `v` is
`Utf8Error::valid_up_to`: the offset at which the first invalid (or
incomplete) sequence starts.  Accepts exactly well-formed UTF-8 per RFC
3629: no overlong forms, no surrogates, no code points above `0x10FFFF`. -/
def utf8DecodeFrom : List Nat → Nat → Except Nat (List Char)
  | [], _ => .ok []
  | b0 :: rest, i =>
    if b0 < 0x80 then
      (utf8DecodeFrom rest (i + 1)).map (fun cs => Char.ofNat b0 :: cs)
    else if b0 < 0xC2 then .error i
    else if b0 < 0xE0 then utf8Decode2 b0 rest i
    else if b0 < 0xF0 then utf8Decode3 b0 rest i
    else if b0 < 0xF5 then utf8Decode4 b0 rest i
    else .error i

/-- Two-byte-sequence tail of `utf8DecodeFrom` (`0xC2 ≤ b0 < 0xE0`). -/
def utf8Decode2 : Nat → List Nat → Nat → Except Nat (List Char)
  | b0, b1 :: rest1, i =>
    if IsCont b1 then
      (utf8DecodeFrom rest1 (i + 2)).map
        (fun cs => Char.ofNat (utf8Val2 b0 b1) :: cs)
    else .error i
  | _, [], i => .error i

/-- Three-byte-sequence tail of `utf8DecodeFrom` (`0xE0 ≤ b0 < 0xF0`). -/
def utf8Decode3 : Nat → List Nat → Nat → Except Nat (List Char)
  | b0, b1 :: b2 :: rest2, i =>
    if Utf8Cond3 b0 b1 b2 then
      (utf8DecodeFrom rest2 (i + 3)).map
        (fun cs => Char.ofNat (utf8Val3 b0 b1 b2) :: cs)
    else .error i
  | _, _, i => .error i

/-- Four-byte-sequence tail of `utf8DecodeFrom` (`0xF0 ≤ b0 < 0xF5`). -/
def utf8Decode4 : Nat → List Nat → Nat → Except Nat (List Char)
  | b0, b1 :: b2 :: b3 :: rest3, i =>
    if Utf8Cond4 b0 b1 b2 b3 then
      (utf8DecodeFrom rest3 (i + 4)).map
        (fun cs => Char.ofNat (utf8Val4 b0 b1 b2 b3) :: cs)
    else .error i
  | _, _, i => .error i

end

/-- Rust `core::str::from_utf8`: decode a whole byte list from offset 0 into a
string, or fail with the `valid_up_to` offset. -/
def from_utf8 (bs : List Nat) : Except Nat String :=
  (utf8DecodeFrom bs 0).map fun cs => ⟨cs⟩

/-- Rust `impl TryFrom<&[u8]> for StrRef` (src/lib.rs:160-167):
`Ok(put_heap(from_utf8(value)?.to_owned()))`. -/
def strRefTryFromBytes (p : StrPool) (bs : List Nat) :
    Except Nat (StrRef × StrPool) :=
  (from_utf8 bs).map fun s => globalPutHeap p s

/-- Rust `impl TryFrom<Vec<u8>> for StrRef` (src/lib.rs:169-177):
`String::from_utf8(value)` performs the same validation, and
`.utf8_error()` yields the same error, so the model coincides with the
byte-slice path. -/
def strRefTryFromVec (p : StrPool) (bs : List Nat) :
    Except Nat (StrRef × StrPool) :=
  (from_utf8 bs).map fun s => globalPutHeap p s

/-- Spec-side UTF-8 encoding of one Unicode scalar value (a `Char`), per
the UTF-8 definition. -/
def specUtf8EncodeChar (c : Char) : List Nat :=
  let n := c.toNat
  if n < 0x80 then [n]
  else if n < 0x800 then [0xC0 + n / 0x40, 0x80 + n % 0x40]
  else if n < 0x10000 then
    [0xE0 + n / 0x1000, 0x80 + (n / 0x40) % 0x40, 0x80 + n % 0x40]
  else
    [0xF0 + n / 0x40000, 0x80 + (n / 0x1000) % 0x40, 0x80 + (n / 0x40) % 0x40,
      0x80 + n % 0x40]

/-- Spec-side UTF-8 encoding of a character sequence. -/
def specUtf8Encode (cs : List Char) : List Nat :=
  cs.flatMap specUtf8EncodeChar

/-- Spec-side notion of a valid UTF-8 byte sequence: the encoding of some
sequence of Unicode scalar values. -/
def IsValidUtf8 (bs : List Nat) : Prop :=
  ∃ cs : List Char, specUtf8Encode cs = bs

/-- Sanity: ASCII decodes. -/
theorem from_utf8_ascii_hi : from_utf8 [0x68, 0x69] = .ok "hi" := rfl

/-- Sanity: a lone invalid byte fails at offset 0. -/
theorem from_utf8_ff : from_utf8 [0xFF] = .error 0 := rfl

/-- Sanity: a trailing invalid byte fails at its own offset. -/
theorem from_utf8_hi_ff : from_utf8 [0x68, 0xFF] = .error 1 := rfl

/-- Sanity: a three-byte sequence (Euro sign) decodes. -/
theorem from_utf8_euro : from_utf8 [0xE2, 0x82, 0xAC] = .ok "€" := rfl

/-- Sanity: the overlong two-byte encoding of NUL is rejected. -/
theorem from_utf8_overlong : from_utf8 [0xC0, 0x80] = .error 0 := rfl

/-- Sanity: an encoded surrogate is rejected. -/
theorem from_utf8_surrogate : from_utf8 [0xED, 0xA0, 0x80] = .error 0 := rfl

/-- Sanity: a four-byte sequence (emoji) decodes. -/
theorem from_utf8_emoji : from_utf8 [0xF0, 0x9F, 0x98, 0x80] = .ok "😀" := rfl

/-- Sanity: the first code point above `0x10FFFF` is rejected. -/
theorem from_utf8_too_big : from_utf8 [0xF4, 0x90, 0x80, 0x80] = .error 0 := rfl

/-- Sanity: the spec-side encoder agrees on the Euro sign. -/
theorem specUtf8Encode_euro : specUtf8Encode "€".data = [0xE2, 0x82, 0xAC] := by
  decide

/- ### Unfolding lemmas for the decoder -/

theorem utf8DecodeFrom_nil (i : Nat) : utf8DecodeFrom [] i = .ok [] := by
  rw [utf8DecodeFrom.eq_def]

theorem utf8DecodeFrom_cons (b0 : Nat) (rest : List Nat) (i : Nat) :
    utf8DecodeFrom (b0 :: rest) i =
      if b0 < 0x80 then
        (utf8DecodeFrom rest (i + 1)).map (fun cs => Char.ofNat b0 :: cs)
      else if b0 < 0xC2 then .error i
      else if b0 < 0xE0 then utf8Decode2 b0 rest i
      else if b0 < 0xF0 then utf8Decode3 b0 rest i
      else if b0 < 0xF5 then utf8Decode4 b0 rest i
      else .error i := by
  rw [utf8DecodeFrom.eq_def]

theorem utf8Decode2_nil (b0 i : Nat) : utf8Decode2 b0 [] i = .error i := by
  rw [utf8Decode2.eq_def]

theorem utf8Decode2_cons (b0 b1 : Nat) (rest1 : List Nat) (i : Nat) :
    utf8Decode2 b0 (b1 :: rest1) i =
      if IsCont b1 then
        (utf8DecodeFrom rest1 (i + 2)).map
          (fun cs => Char.ofNat (utf8Val2 b0 b1) :: cs)
      else .error i := by
  rw [utf8Decode2.eq_def]

theorem utf8Decode3_nil (b0 i : Nat) : utf8Decode3 b0 [] i = .error i := by
  rw [utf8Decode3.eq_def]

theorem utf8Decode3_one (b0 b1 i : Nat) : utf8Decode3 b0 [b1] i = .error i := by
  rw [utf8Decode3.eq_def]

theorem utf8Decode3_cons (b0 b1 b2 : Nat) (rest2 : List Nat) (i : Nat) :
    utf8Decode3 b0 (b1 :: b2 :: rest2) i =
      if Utf8Cond3 b0 b1 b2 then
        (utf8DecodeFrom rest2 (i + 3)).map
          (fun cs => Char.ofNat (utf8Val3 b0 b1 b2) :: cs)
      else .error i := by
  rw [utf8Decode3.eq_def]

theorem utf8Decode4_nil (b0 i : Nat) : utf8Decode4 b0 [] i = .error i := by
  rw [utf8Decode4.eq_def]

theorem utf8Decode4_one (b0 b1 i : Nat) : utf8Decode4 b0 [b1] i = .error i := by
  rw [utf8Decode4.eq_def]

theorem utf8Decode4_two (b0 b1 b2 i : Nat) :
    utf8Decode4 b0 [b1, b2] i = .error i := by
  rw [utf8Decode4.eq_def]

theorem utf8Decode4_cons (b0 b1 b2 b3 : Nat) (rest3 : List Nat) (i : Nat) :
    utf8Decode4 b0 (b1 :: b2 :: b3 :: rest3) i =
      if Utf8Cond4 b0 b1 b2 b3 then
        (utf8DecodeFrom rest3 (i + 4)).map
          (fun cs => Char.ofNat (utf8Val4 b0 b1 b2 b3) :: cs)
      else .error i := by
  rw [utf8Decode4.eq_def]

/- ### UTF-8 helper lemmas -/

theorem char_toNat_ofNat {n : Nat} (h : n.isValidChar) :
    (Char.ofNat n).toNat = n := by
  unfold Char.ofNat
  rw [dif_pos h]
  rfl

theorem exceptMap_ok {α : Type u} {β : Type v} {γ : Type w} {e : Except α β}
    {f : β → γ} {c : γ} : e.map f = .ok c ↔ ∃ b, e = .ok b ∧ f b = c := by
  cases e <;> simp [Except.map]

theorem exceptMap_error {α : Type u} {β : Type v} {γ : Type w} {e : Except α β}
    {f : β → γ} {i : α} : e.map f = .error i ↔ e = .error i := by
  cases e <;> simp [Except.map]

theorem encodeChar_ofNat_one {b0 : Nat} (h : b0 < 0x80) :
    specUtf8EncodeChar (Char.ofNat b0) = [b0] := by
  have hv : b0.isValidChar := Or.inl (by omega)
  simp [specUtf8EncodeChar, char_toNat_ofNat hv, h]

theorem encodeChar_val2 {b0 b1 : Nat} (h0 : 0xC2 ≤ b0) (h0' : b0 < 0xE0)
    (hc : IsCont b1) :
    specUtf8EncodeChar (Char.ofNat (utf8Val2 b0 b1)) = [b0, b1] := by
  obtain ⟨h1, h1'⟩ := hc
  have hval : utf8Val2 b0 b1 = (b0 - 0xC0) * 0x40 + (b1 - 0x80) := rfl
  have hv : (utf8Val2 b0 b1).isValidChar := Or.inl (by omega)
  have h80 : ¬ utf8Val2 b0 b1 < 0x80 := by omega
  have h800 : utf8Val2 b0 b1 < 0x800 := by omega
  simp only [specUtf8EncodeChar, char_toNat_ofNat hv, if_neg h80, if_pos h800]
  have e1 : 0xC0 + utf8Val2 b0 b1 / 0x40 = b0 := by omega
  have e2 : 0x80 + utf8Val2 b0 b1 % 0x40 = b1 := by omega
  rw [e1, e2]

theorem encodeChar_val3 {b0 b1 b2 : Nat} (h0 : 0xE0 ≤ b0) (h0' : b0 < 0xF0)
    (hc : Utf8Cond3 b0 b1 b2) :
    specUtf8EncodeChar (Char.ofNat (utf8Val3 b0 b1 b2)) = [b0, b1, b2] := by
  obtain ⟨⟨h1, h1'⟩, ⟨h2, h2'⟩, hge, hsur⟩ := hc
  have hval : utf8Val3 b0 b1 b2 =
      (b0 - 0xE0) * 0x1000 + (b1 - 0x80) * 0x40 + (b2 - 0x80) := rfl
  have hv : (utf8Val3 b0 b1 b2).isValidChar := by
    rcases hsur with h | h
    · exact Or.inl h
    · exact Or.inr ⟨h, by omega⟩
  have h80 : ¬ utf8Val3 b0 b1 b2 < 0x80 := by omega
  have h800 : ¬ utf8Val3 b0 b1 b2 < 0x800 := by omega
  have h10000 : utf8Val3 b0 b1 b2 < 0x10000 := by omega
  simp only [specUtf8EncodeChar, char_toNat_ofNat hv, if_neg h80, if_neg h800,
    if_pos h10000]
  have e1 : 0xE0 + utf8Val3 b0 b1 b2 / 0x1000 = b0 := by omega
  have e2 : 0x80 + utf8Val3 b0 b1 b2 / 0x40 % 0x40 = b1 := by omega
  have e3 : 0x80 + utf8Val3 b0 b1 b2 % 0x40 = b2 := by omega
  rw [e1, e2, e3]

theorem encodeChar_val4 {b0 b1 b2 b3 : Nat} (h0 : 0xF0 ≤ b0) (h0' : b0 < 0xF5)
    (hc : Utf8Cond4 b0 b1 b2 b3) :
    specUtf8EncodeChar (Char.ofNat (utf8Val4 b0 b1 b2 b3)) = [b0, b1, b2, b3] := by
  obtain ⟨⟨h1, h1'⟩, ⟨h2, h2'⟩, ⟨h3, h3'⟩, hge, hlt⟩ := hc
  have hval : utf8Val4 b0 b1 b2 b3 = (b0 - 0xF0) * 0x40000 +
      (b1 - 0x80) * 0x1000 + (b2 - 0x80) * 0x40 + (b3 - 0x80) := rfl
  have hv : (utf8Val4 b0 b1 b2 b3).isValidChar := Or.inr ⟨by omega, hlt⟩
  have h80 : ¬ utf8Val4 b0 b1 b2 b3 < 0x80 := by omega
  have h800 : ¬ utf8Val4 b0 b1 b2 b3 < 0x800 := by omega
  have h10000 : ¬ utf8Val4 b0 b1 b2 b3 < 0x10000 := by omega
  simp only [specUtf8EncodeChar, char_toNat_ofNat hv, if_neg h80, if_neg h800,
    if_neg h10000]
  have e1 : 0xF0 + utf8Val4 b0 b1 b2 b3 / 0x40000 = b0 := by omega
  have e2 : 0x80 + utf8Val4 b0 b1 b2 b3 / 0x1000 % 0x40 = b1 := by omega
  have e3 : 0x80 + utf8Val4 b0 b1 b2 b3 / 0x40 % 0x40 = b2 := by omega
  have e4 : 0x80 + utf8Val4 b0 b1 b2 b3 % 0x40 = b3 := by omega
  rw [e1, e2, e3, e4]

theorem specUtf8Encode_cons (c : Char) (cs : List Char) :
    specUtf8Encode (c :: cs) = specUtf8EncodeChar c ++ specUtf8Encode cs := by
  simp [specUtf8Encode]

theorem utf8DecodeFrom_sound :
    ∀ (N : Nat) (bs : List Nat), bs.length ≤ N → ∀ (i : Nat) (cs : List Char),
    utf8DecodeFrom bs i = .ok cs → specUtf8Encode cs = bs := by
  intro N
  induction N with
  | zero =>
    intro bs hlen i cs h
    rcases bs with _ | ⟨b0, rest⟩
    · rw [utf8DecodeFrom_nil] at h
      cases h
      rfl
    · simp at hlen
  | succ N ih =>
    intro bs hlen i cs h
    rcases bs with _ | ⟨b0, rest⟩
    · rw [utf8DecodeFrom_nil] at h
      cases h
      rfl
    · rw [utf8DecodeFrom_cons] at h
      have hrest : rest.length ≤ N := by
        simp only [List.length_cons] at hlen
        omega
      by_cases h1 : b0 < 0x80
      · rw [if_pos h1, exceptMap_ok] at h
        obtain ⟨cs', hrec, rfl⟩ := h
        rw [specUtf8Encode_cons, ih rest hrest _ _ hrec, encodeChar_ofNat_one h1]
        rfl
      rw [if_neg h1] at h
      by_cases h2 : b0 < 0xC2
      · rw [if_pos h2] at h
        exact Except.noConfusion h
      rw [if_neg h2] at h
      by_cases h3 : b0 < 0xE0
      · rw [if_pos h3] at h
        rcases rest with _ | ⟨b1, rest1⟩
        · rw [utf8Decode2_nil] at h
          exact Except.noConfusion h
        rw [utf8Decode2_cons] at h
        by_cases hc : IsCont b1
        · rw [if_pos hc, exceptMap_ok] at h
          obtain ⟨cs', hrec, rfl⟩ := h
          have : rest1.length ≤ N := by
            simp only [List.length_cons] at hrest
            omega
          rw [specUtf8Encode_cons, ih rest1 this _ _ hrec,
            encodeChar_val2 (by omega) (by omega) hc]
          rfl
        · rw [if_neg hc] at h
          exact Except.noConfusion h
      rw [if_neg h3] at h
      by_cases h4 : b0 < 0xF0
      · rw [if_pos h4] at h
        rcases rest with _ | ⟨b1, rest'⟩
        · rw [utf8Decode3_nil] at h
          exact Except.noConfusion h
        rcases rest' with _ | ⟨b2, rest2⟩
        · rw [utf8Decode3_one] at h
          exact Except.noConfusion h
        rw [utf8Decode3_cons] at h
        by_cases hc : Utf8Cond3 b0 b1 b2
        · rw [if_pos hc, exceptMap_ok] at h
          obtain ⟨cs', hrec, rfl⟩ := h
          have : rest2.length ≤ N := by
            simp only [List.length_cons] at hrest
            omega
          rw [specUtf8Encode_cons, ih rest2 this _ _ hrec,
            encodeChar_val3 (by omega) (by omega) hc]
          rfl
        · rw [if_neg hc] at h
          exact Except.noConfusion h
      rw [if_neg h4] at h
      by_cases h5 : b0 < 0xF5
      · rw [if_pos h5] at h
        rcases rest with _ | ⟨b1, rest'⟩
        · rw [utf8Decode4_nil] at h
          exact Except.noConfusion h
        rcases rest' with _ | ⟨b2, rest''⟩
        · rw [utf8Decode4_one] at h
          exact Except.noConfusion h
        rcases rest'' with _ | ⟨b3, rest3⟩
        · rw [utf8Decode4_two] at h
          exact Except.noConfusion h
        rw [utf8Decode4_cons] at h
        by_cases hc : Utf8Cond4 b0 b1 b2 b3
        · rw [if_pos hc, exceptMap_ok] at h
          obtain ⟨cs', hrec, rfl⟩ := h
          have : rest3.length ≤ N := by
            simp only [List.length_cons] at hrest
            omega
          rw [specUtf8Encode_cons, ih rest3 this _ _ hrec,
            encodeChar_val4 (by omega) (by omega) hc]
          rfl
        · rw [if_neg hc] at h
          exact Except.noConfusion h
      · rw [if_neg h5] at h
        exact Except.noConfusion h

theorem utf8DecodeFrom_encodeChar (c : Char) (rest : List Nat) (i : Nat) :
    utf8DecodeFrom (specUtf8EncodeChar c ++ rest) i =
      (utf8DecodeFrom rest (i + (specUtf8EncodeChar c).length)).map
        (fun cs => c :: cs) := by
  have hvd : c.toNat < 0xD800 ∨ (0xE000 ≤ c.toNat ∧ c.toNat < 0x110000) := c.valid
  by_cases h1 : c.toNat < 0x80
  · have he : specUtf8EncodeChar c = [c.toNat] := by
      simp only [specUtf8EncodeChar, if_pos h1]
    rw [he]
    simp only [List.cons_append, List.nil_append]
    rw [utf8DecodeFrom_cons, if_pos h1, Char.ofNat_toNat]
    rfl
  by_cases h2 : c.toNat < 0x800
  · have he : specUtf8EncodeChar c =
        [0xC0 + c.toNat / 0x40, 0x80 + c.toNat % 0x40] := by
      simp only [specUtf8EncodeChar, if_neg h1, if_pos h2]
    have f1 : ¬ 0xC0 + c.toNat / 0x40 < 0x80 := by omega
    have f2 : ¬ 0xC0 + c.toNat / 0x40 < 0xC2 := by omega
    have f3 : 0xC0 + c.toNat / 0x40 < 0xE0 := by omega
    have fc : IsCont (0x80 + c.toNat % 0x40) := ⟨by omega, by omega⟩
    have fv : utf8Val2 (0xC0 + c.toNat / 0x40) (0x80 + c.toNat % 0x40) =
        c.toNat := by
      unfold utf8Val2
      omega
    rw [he]
    simp only [List.cons_append, List.nil_append]
    rw [utf8DecodeFrom_cons, if_neg f1, if_neg f2, if_pos f3, utf8Decode2_cons,
      if_pos fc, fv, Char.ofNat_toNat]
    rfl
  by_cases h3 : c.toNat < 0x10000
  · have he : specUtf8EncodeChar c = [0xE0 + c.toNat / 0x1000,
        0x80 + c.toNat / 0x40 % 0x40, 0x80 + c.toNat % 0x40] := by
      simp only [specUtf8EncodeChar, if_neg h1, if_neg h2, if_pos h3]
    have f1 : ¬ 0xE0 + c.toNat / 0x1000 < 0x80 := by omega
    have f2 : ¬ 0xE0 + c.toNat / 0x1000 < 0xC2 := by omega
    have f3 : ¬ 0xE0 + c.toNat / 0x1000 < 0xE0 := by omega
    have f4 : 0xE0 + c.toNat / 0x1000 < 0xF0 := by omega
    have fv : utf8Val3 (0xE0 + c.toNat / 0x1000) (0x80 + c.toNat / 0x40 % 0x40)
        (0x80 + c.toNat % 0x40) = c.toNat := by
      unfold utf8Val3
      omega
    have fc : Utf8Cond3 (0xE0 + c.toNat / 0x1000) (0x80 + c.toNat / 0x40 % 0x40)
        (0x80 + c.toNat % 0x40) := by
      refine ⟨⟨by omega, by omega⟩, ⟨by omega, by omega⟩, ?_, ?_⟩
      · rw [fv]
        omega
      · rw [fv]
        omega
    rw [he]
    simp only [List.cons_append, List.nil_append]
    rw [utf8DecodeFrom_cons, if_neg f1, if_neg f2, if_neg f3, if_pos f4,
      utf8Decode3_cons, if_pos fc, fv, Char.ofNat_toNat]
    rfl
  · have he : specUtf8EncodeChar c = [0xF0 + c.toNat / 0x40000,
        0x80 + c.toNat / 0x1000 % 0x40, 0x80 + c.toNat / 0x40 % 0x40,
        0x80 + c.toNat % 0x40] := by
      simp only [specUtf8EncodeChar, if_neg h1, if_neg h2, if_neg h3]
    have hub : c.toNat < 0x110000 := by omega
    have f1 : ¬ 0xF0 + c.toNat / 0x40000 < 0x80 := by omega
    have f2 : ¬ 0xF0 + c.toNat / 0x40000 < 0xC2 := by omega
    have f3 : ¬ 0xF0 + c.toNat / 0x40000 < 0xE0 := by omega
    have f4 : ¬ 0xF0 + c.toNat / 0x40000 < 0xF0 := by omega
    have f5 : 0xF0 + c.toNat / 0x40000 < 0xF5 := by omega
    have fv : utf8Val4 (0xF0 + c.toNat / 0x40000) (0x80 + c.toNat / 0x1000 % 0x40)
        (0x80 + c.toNat / 0x40 % 0x40) (0x80 + c.toNat % 0x40) = c.toNat := by
      unfold utf8Val4
      omega
    have fc : Utf8Cond4 (0xF0 + c.toNat / 0x40000) (0x80 + c.toNat / 0x1000 % 0x40)
        (0x80 + c.toNat / 0x40 % 0x40) (0x80 + c.toNat % 0x40) := by
      refine ⟨⟨by omega, by omega⟩, ⟨by omega, by omega⟩, ⟨by omega, by omega⟩,
        ?_, ?_⟩
      · rw [fv]
        omega
      · rw [fv]
        omega
    rw [he]
    simp only [List.cons_append, List.nil_append]
    rw [utf8DecodeFrom_cons, if_neg f1, if_neg f2, if_neg f3, if_neg f4,
      if_pos f5, utf8Decode4_cons, if_pos fc, fv, Char.ofNat_toNat]
    rfl

theorem utf8DecodeFrom_encode (cs : List Char) (i : Nat) :
    utf8DecodeFrom (specUtf8Encode cs) i = .ok cs := by
  induction cs generalizing i with
  | nil => exact utf8DecodeFrom_nil i
  | cons c cs ih =>
    rw [specUtf8Encode_cons, utf8DecodeFrom_encodeChar, ih]
    rfl

theorem utf8DecodeFrom_error_valid_up_to :
    ∀ (N : Nat) (bs : List Nat), bs.length ≤ N → ∀ (j i : Nat),
    utf8DecodeFrom bs j = .error i →
    j ≤ i ∧ i - j ≤ bs.length ∧
      ∃ cs, utf8DecodeFrom (bs.take (i - j)) j = .ok cs := by
  intro N
  induction N with
  | zero =>
    intro bs hlen j i h
    rcases bs with _ | ⟨b0, rest⟩
    · rw [utf8DecodeFrom_nil] at h
      exact Except.noConfusion h
    · simp at hlen
  | succ N ih =>
    intro bs hlen j i h
    rcases bs with _ | ⟨b0, rest⟩
    · rw [utf8DecodeFrom_nil] at h
      exact Except.noConfusion h
    rw [utf8DecodeFrom_cons] at h
    have hrest : rest.length ≤ N := by
      simp only [List.length_cons] at hlen
      omega
    by_cases h1 : b0 < 0x80
    · rw [if_pos h1, exceptMap_error] at h
      obtain ⟨hj, hb, cs, hcs⟩ := ih rest hrest (j + 1) i h
      refine ⟨by omega, by simp only [List.length_cons]; omega,
        Char.ofNat b0 :: cs, ?_⟩
      have hsplit : i - j = (i - (j + 1)) + 1 := by omega
      rw [hsplit, List.take_succ_cons, utf8DecodeFrom_cons, if_pos h1, hcs]
      rfl
    rw [if_neg h1] at h
    by_cases h2 : b0 < 0xC2
    · rw [if_pos h2] at h
      injection h with h
      subst h
      exact ⟨Nat.le_refl _, by simp, [], by
        rw [Nat.sub_self, List.take_zero, utf8DecodeFrom_nil]⟩
    rw [if_neg h2] at h
    by_cases h3 : b0 < 0xE0
    · rw [if_pos h3] at h
      rcases rest with _ | ⟨b1, rest1⟩
      · rw [utf8Decode2_nil] at h
        injection h with h
        subst h
        exact ⟨Nat.le_refl _, by simp, [], by
          rw [Nat.sub_self, List.take_zero, utf8DecodeFrom_nil]⟩
      rw [utf8Decode2_cons] at h
      by_cases hc : IsCont b1
      · rw [if_pos hc, exceptMap_error] at h
        have hr1 : rest1.length ≤ N := by
          simp only [List.length_cons] at hrest
          omega
        obtain ⟨hj, hb, cs, hcs⟩ := ih rest1 hr1 (j + 2) i h
        refine ⟨by omega, by simp only [List.length_cons]; omega,
          Char.ofNat (utf8Val2 b0 b1) :: cs, ?_⟩
        have hsplit : i - j = (i - (j + 2)) + 1 + 1 := by omega
        rw [hsplit, List.take_succ_cons, List.take_succ_cons,
          utf8DecodeFrom_cons, if_neg h1, if_neg h2, if_pos h3,
          utf8Decode2_cons, if_pos hc, hcs]
        rfl
      · rw [if_neg hc] at h
        injection h with h
        subst h
        exact ⟨Nat.le_refl _, by simp, [], by
          rw [Nat.sub_self, List.take_zero, utf8DecodeFrom_nil]⟩
    rw [if_neg h3] at h
    by_cases h4 : b0 < 0xF0
    · rw [if_pos h4] at h
      rcases rest with _ | ⟨b1, rest'⟩
      · rw [utf8Decode3_nil] at h
        injection h with h
        subst h
        exact ⟨Nat.le_refl _, by simp, [], by
          rw [Nat.sub_self, List.take_zero, utf8DecodeFrom_nil]⟩
      rcases rest' with _ | ⟨b2, rest2⟩
      · rw [utf8Decode3_one] at h
        injection h with h
        subst h
        exact ⟨Nat.le_refl _, by simp, [], by
          rw [Nat.sub_self, List.take_zero, utf8DecodeFrom_nil]⟩
      rw [utf8Decode3_cons] at h
      by_cases hc : Utf8Cond3 b0 b1 b2
      · rw [if_pos hc, exceptMap_error] at h
        have hr2 : rest2.length ≤ N := by
          simp only [List.length_cons] at hrest
          omega
        obtain ⟨hj, hb, cs, hcs⟩ := ih rest2 hr2 (j + 3) i h
        refine ⟨by omega, by simp only [List.length_cons]; omega,
          Char.ofNat (utf8Val3 b0 b1 b2) :: cs, ?_⟩
        have hsplit : i - j = (i - (j + 3)) + 1 + 1 + 1 := by omega
        rw [hsplit, List.take_succ_cons, List.take_succ_cons,
          List.take_succ_cons, utf8DecodeFrom_cons, if_neg h1, if_neg h2,
          if_neg h3, if_pos h4, utf8Decode3_cons, if_pos hc, hcs]
        rfl
      · rw [if_neg hc] at h
        injection h with h
        subst h
        exact ⟨Nat.le_refl _, by simp, [], by
          rw [Nat.sub_self, List.take_zero, utf8DecodeFrom_nil]⟩
    rw [if_neg h4] at h
    by_cases h5 : b0 < 0xF5
    · rw [if_pos h5] at h
      rcases rest with _ | ⟨b1, rest'⟩
      · rw [utf8Decode4_nil] at h
        injection h with h
        subst h
        exact ⟨Nat.le_refl _, by simp, [], by
          rw [Nat.sub_self, List.take_zero, utf8DecodeFrom_nil]⟩
      rcases rest' with _ | ⟨b2, rest''⟩
      · rw [utf8Decode4_one] at h
        injection h with h
        subst h
        exact ⟨Nat.le_refl _, by simp, [], by
          rw [Nat.sub_self, List.take_zero, utf8DecodeFrom_nil]⟩
      rcases rest'' with _ | ⟨b3, rest3⟩
      · rw [utf8Decode4_two] at h
        injection h with h
        subst h
        exact ⟨Nat.le_refl _, by simp, [], by
          rw [Nat.sub_self, List.take_zero, utf8DecodeFrom_nil]⟩
      rw [utf8Decode4_cons] at h
      by_cases hc : Utf8Cond4 b0 b1 b2 b3
      · rw [if_pos hc, exceptMap_error] at h
        have hr3 : rest3.length ≤ N := by
          simp only [List.length_cons] at hrest
          omega
        obtain ⟨hj, hb, cs, hcs⟩ := ih rest3 hr3 (j + 4) i h
        refine ⟨by omega, by simp only [List.length_cons]; omega,
          Char.ofNat (utf8Val4 b0 b1 b2 b3) :: cs, ?_⟩
        have hsplit : i - j = (i - (j + 4)) + 1 + 1 + 1 + 1 := by omega
        rw [hsplit, List.take_succ_cons, List.take_succ_cons,
          List.take_succ_cons, List.take_succ_cons, utf8DecodeFrom_cons,
          if_neg h1, if_neg h2, if_neg h3, if_neg h4, if_pos h5,
          utf8Decode4_cons, if_pos hc, hcs]
        rfl
      · rw [if_neg hc] at h
        injection h with h
        subst h
        exact ⟨Nat.le_refl _, by simp, [], by
          rw [Nat.sub_self, List.take_zero, utf8DecodeFrom_nil]⟩
    · rw [if_neg h5] at h
      injection h with h
      subst h
      exact ⟨Nat.le_refl _, by simp, [], by
        rw [Nat.sub_self, List.take_zero, utf8DecodeFrom_nil]⟩

/-- C4: Constructing a handle from bytes succeeds exactly when the bytes
are valid UTF-8 (the encoding of some sequence of Unicode scalar values); on
failure the error carries the byte offset at which the invalid sequence
starts (everything before it is valid UTF-8); on success the handle resolves
to the decoded text; the owned-buffer path behaves identically to the
byte-slice path; the single byte `0xFF` is rejected with error offset 0; and
the bytes `[0x68, 0x69]` succeed with a handle resolving to `"hi"`. -/
theorem C4_tryfrom_utf8 :
    (∀ bs : List Nat, (∃ s, from_utf8 bs = .ok s) ↔ IsValidUtf8 bs) ∧
    (∀ (bs : List Nat) (i : Nat), from_utf8 bs = .error i →
        i ≤ bs.length ∧ IsValidUtf8 (bs.take i)) ∧
    (∀ (p : StrPool) (bs : List Nat) (r : StrRef) (q : StrPool),
        strRefTryFromBytes p bs = .ok (r, q) →
          ∃ s, from_utf8 bs = .ok s ∧ derefOpt q r = some s) ∧
    (∀ (p : StrPool) (bs : List Nat) (i : Nat),
        strRefTryFromBytes p bs = .error i ↔ from_utf8 bs = .error i) ∧
    (∀ (p : StrPool) (bs : List Nat),
        strRefTryFromVec p bs = strRefTryFromBytes p bs) ∧
    (∀ p : StrPool, strRefTryFromBytes p [0xFF] = .error 0) ∧
    (∀ p : StrPool, strRefTryFromBytes p [0x68, 0x69] =
        .ok (globalPutHeap p "hi") ∧
      derefOpt (globalPutHeap p "hi").2 (globalPutHeap p "hi").1 = some "hi") := by
  refine ⟨?_, ?_, ?_, ?_, fun _ _ => rfl, fun _ => rfl,
    fun p => ⟨rfl, put_heap_get_self p "hi"⟩⟩
  · intro bs
    constructor
    · rintro ⟨s, hs⟩
      rw [from_utf8, exceptMap_ok] at hs
      obtain ⟨cs, hdec, rfl⟩ := hs
      exact ⟨cs, utf8DecodeFrom_sound bs.length bs (Nat.le_refl _) 0 cs hdec⟩
    · rintro ⟨cs, rfl⟩
      refine ⟨⟨cs⟩, ?_⟩
      rw [from_utf8, utf8DecodeFrom_encode]
      rfl
  · intro bs i h
    rw [from_utf8, exceptMap_error] at h
    obtain ⟨-, hb, cs, hcs⟩ :=
      utf8DecodeFrom_error_valid_up_to bs.length bs (Nat.le_refl _) 0 i h
    rw [Nat.sub_zero] at hb hcs
    exact ⟨hb, cs,
      utf8DecodeFrom_sound (bs.take i).length _ (Nat.le_refl _) 0 cs hcs⟩
  · intro p bs r q h
    rw [strRefTryFromBytes, exceptMap_ok] at h
    obtain ⟨s, hs, hpq⟩ := h
    refine ⟨s, hs, ?_⟩
    have h1 : q = (globalPutHeap p s).2 := by rw [hpq]
    have h2 : r = (globalPutHeap p s).1 := by rw [hpq]
    rw [h1, h2]
    exact put_heap_get_self p s
  · intro p bs i
    rw [strRefTryFromBytes, exceptMap_error]

/-- Witness for C4: `from_utf8 [0x68, 0xFF]` fails at offset 1, and the
one-byte prefix `[0x68]` is valid UTF-8. -/
theorem C4_tryfrom_utf8_witness :
    1 ≤ ([0x68, 0xFF] : List Nat).length ∧
      IsValidUtf8 (([0x68, 0xFF] : List Nat).take 1) :=
  C4_tryfrom_utf8.2.1 [0x68, 0xFF] 1 rfl
